import Mathlib

/-!
Verification of the buffer pool / LRU-K replacer / row codec of the
NU-CS339-Lab2 storage engine.

The definitions below are a shallow embedding of the Rust sources:
  * `src/storage/buffer/lru_k_replacer/lru_k_replacer.rs`
  * `src/storage/buffer/buffer_pool_manager/buffer_pool_manager.rs`
  * `src/storage/tuple/row.rs`

Modelling conventions:
  * `usize` is modelled as `Nat`; Rust `saturating_sub` coincides with `Nat`
    subtraction, and `usize::MAX` is the explicit constant `USIZE_MAX`.
  * `HashMap` is modelled as an association list (all reachable stores have
    pairwise-distinct keys); `VecDeque` as a `List` (front = head,
    `push_back` = append).
  * A Rust panic (also via `expect`/`unwrap`) is modelled by an `Option`-valued
    operation returning `none`; `?`-early-returns are modelled by the
    corresponding early `return` value.
-/

/-- `usize::MAX` on a 64-bit target. -/
def USIZE_MAX : Nat := 2 ^ 64 - 1

/-! ## Association-list primitives (model of `HashMap`) -/

/-- Lookup of a key in an association list (model of `HashMap::get`). -/
def lookupA {α : Type} (f : Nat) : List (Nat × α) → Option α
  | [] => none
  | p :: rest => if p.1 = f then some p.2 else lookupA f rest

/-- Replace the value stored at a key (model of mutation through
`HashMap::get_mut`). -/
def replaceA {α : Type} (f : Nat) (v : α) (l : List (Nat × α)) : List (Nat × α) :=
  l.map (fun p => if p.1 = f then (f, v) else p)

/-- Remove a key (model of `HashMap::remove`). -/
def eraseA {α : Type} (f : Nat) (l : List (Nat × α)) : List (Nat × α) :=
  l.filter (fun p => ¬ p.1 = f)

/-- Insert-or-replace (model of `HashMap::insert` and of
`HashMap::entry(..).or_insert_with(..)` followed by mutation). -/
def insertA {α : Type} (f : Nat) (v : α) (l : List (Nat × α)) : List (Nat × α) :=
  if (lookupA f l).isSome then replaceA f v l else l ++ [(f, v)]

/-! ## LRU-K replacer (from `lru_k_replacer.rs`) -/

/-- `LRUKNode`: access history of one frame.  `history` is the `VecDeque`
with the least recent timestamp at the head. -/
structure LRUKNode where
  history : List Nat
  k : Nat
  isEvictable : Bool
deriving DecidableEq, Repr

/-- `LRUKNode::new`. -/
def LRUKNode.new (k : Nat) : LRUKNode :=
  { history := [], k := k, isEvictable := false }

/-- `LRUKNode::get_backwards_k_distance`: `usize::MAX` when fewer than `k`
accesses were recorded, otherwise `current_timestamp.saturating_sub(history[len-k])`.
(When `k ≥ 1` the index `len - k` is in range, matching the Rust indexing;
the builder asserts `k > 0`.) -/
def LRUKNode.getBackwardsKDistance (n : LRUKNode) (currentTimestamp : Nat) : Nat :=
  if n.history.length < n.k then USIZE_MAX
  else currentTimestamp - n.history.getD (n.history.length - n.k) 0

/-- `LRUKNode::has_infinite_backwards_k_distance`. -/
def LRUKNode.hasInfiniteBackwardsKDistance (n : LRUKNode) : Bool :=
  n.history.length < n.k

/-- `LRUKReplacer` state. -/
structure LRUKReplacer where
  nodeStore : List (Nat × LRUKNode)
  currentTimestamp : Nat
  currSize : Nat
  maxSize : Nat
  k : Nat
deriving DecidableEq, Repr

/-- `LRUKReplacer::new`. -/
def LRUKReplacer.new (numFrames k : Nat) : LRUKReplacer :=
  { nodeStore := [], currentTimestamp := 0, currSize := 0, maxSize := numFrames, k := k }

/-- The loop body accumulator of `LRUKReplacer::evict`:
`(frame_to_evict, earliest_timestamp_with_infinity, max_k_distance)`. -/
def evictAcc : Type := Option Nat × Nat × Nat

/-- The scan loop of `LRUKReplacer::evict`, verbatim from the source.
`fb` is the fallback used by `history.front().unwrap_or(&usize::MAX)`;
the source instantiates it with `usize::MAX`. -/
def evictLoop (ts fb : Nat) : List (Nat × LRUKNode) → (Option Nat × Nat × Nat) →
    (Option Nat × Nat × Nat)
  | [], acc => acc
  | (f, n) :: rest, (fte, ear, mx) =>
    evictLoop ts fb rest
      (if n.isEvictable then
        let kd := n.getBackwardsKDistance ts
        if n.hasInfiniteBackwardsKDistance then
          let fa := n.history.headD fb
          if fte = none ∨ fa < ear then (some f, fa, mx) else (fte, ear, mx)
        else
          if fte = none ∨ (fte ≠ none ∧ ear = USIZE_MAX ∧ mx < kd) then
            (some f, ear, kd)
          else (fte, ear, mx)
      else (fte, ear, mx))

/-- The frame chosen by the scan of `evict`, with fallback `fb` for empty
histories. -/
def LRUKReplacer.evictChoice (fb : Nat) (r : LRUKReplacer) : Option Nat :=
  (evictLoop r.currentTimestamp fb r.nodeStore (none, USIZE_MAX, 0)).1

/-- `LRUKReplacer::evict`: scan, then remove the chosen node and decrement
`curr_size`. -/
def LRUKReplacer.evict (r : LRUKReplacer) : Option Nat × LRUKReplacer :=
  match r.evictChoice USIZE_MAX with
  | some f =>
    (some f, { r with nodeStore := eraseA f r.nodeStore, currSize := r.currSize - 1 })
  | none => (none, r)

/-- `LRUKReplacer::record_access`.  `none` models the panic on
`frame_id >= max_size`. -/
def LRUKReplacer.recordAccess (r : LRUKReplacer) (frameId : Nat) : Option LRUKReplacer :=
  if r.maxSize ≤ frameId then none
  else
    let node := (lookupA frameId r.nodeStore).getD (LRUKNode.new r.k)
    let node := if node.history.length = r.k then { node with history := node.history.tail }
                else node
    let node := { node with history := node.history ++ [r.currentTimestamp] }
    some { r with nodeStore := insertA frameId node r.nodeStore,
                  currentTimestamp := r.currentTimestamp + 1 }

/-- `LRUKReplacer::set_evictable`.  `none` models the panic on
`frame_id >= max_size`; on a flag transition `curr_size` is adjusted
(`curr_size - 1` is `Nat` subtraction; in every invariant-satisfying state
the subtraction never hits zero, matching the Rust `usize` arithmetic). -/
def LRUKReplacer.setEvictable (r : LRUKReplacer) (frameId : Nat) (b : Bool) :
    Option LRUKReplacer :=
  if r.maxSize ≤ frameId then none
  else
    match lookupA frameId r.nodeStore with
    | none => some r
    | some n =>
      if n.isEvictable ≠ b then
        some { r with
                 currSize := if b then r.currSize + 1 else r.currSize - 1,
                 nodeStore := replaceA frameId { n with isEvictable := b } r.nodeStore }
      else some r

/-- `LRUKReplacer::remove`.  `none` models the panic on removing a
non-evictable frame and the panic of `decrement_current_size` at zero. -/
def LRUKReplacer.remove (r : LRUKReplacer) (frameId : Nat) : Option LRUKReplacer :=
  match lookupA frameId r.nodeStore with
  | none => some r
  | some n =>
    if n.isEvictable = false then none
    else if r.currSize = 0 then none
    else some { r with nodeStore := eraseA frameId r.nodeStore, currSize := r.currSize - 1 }

/-- `LRUKReplacer::size`. -/
def LRUKReplacer.size (r : LRUKReplacer) : Nat := r.currSize

/-- Number of nodes in a store with `is_evictable = true`. -/
def countEvictable (l : List (Nat × LRUKNode)) : Nat :=
  (l.filter (fun p => p.2.isEvictable)).length

/-- One public replacer operation, for reasoning about arbitrary operation
sequences. -/
inductive ROp where
  | recA (frameId : Nat)
  | setEv (frameId : Nat) (b : Bool)
  | evict
  | rem (frameId : Nat)
deriving DecidableEq, Repr

/-- Apply one public replacer operation (the value returned by `evict` is
dropped; only the state evolution matters here). -/
def applyROp (op : ROp) (r : LRUKReplacer) : Option LRUKReplacer :=
  match op with
  | .recA f => r.recordAccess f
  | .setEv f b => r.setEvictable f b
  | .evict => some (r.evict).2
  | .rem f => r.remove f

/-- Run a sequence of public replacer operations. -/
def runROps : List ROp → LRUKReplacer → Option LRUKReplacer
  | [], r => some r
  | op :: rest, r =>
    match applyROp op r with
    | none => none
    | some r2 => runROps rest r2

/-! ## The eviction scan invariant (for C3) -/

/-- Invariant of the `evict` scan after processing the prefix `P` of the
node store, when no victim candidate has been found yet. -/
def evictInvNone (P : List (Nat × LRUKNode)) : Prop :=
  ∀ p ∈ P, p.2.isEvictable = false

/-- Invariant of the `evict` scan after processing the prefix `P`, when the
current candidate is frame `f` with accumulator values `ear`
(`earliest_timestamp_with_infinity`) and `mx` (`max_k_distance`). -/
def evictInvSome (ts : Nat) (P : List (Nat × LRUKNode)) (f : Nat) (ear mx : Nat) : Prop :=
  ∃ n, (f, n) ∈ P ∧ n.isEvictable = true ∧
    ((n.history.length < n.k ∧ ear = n.history.headD USIZE_MAX ∧ ear < USIZE_MAX ∧
       ∀ p ∈ P, p.2.isEvictable = true → p.2.history.length < p.2.k →
         ear ≤ p.2.history.headD USIZE_MAX)
     ∨ (¬ n.history.length < n.k ∧ ear = USIZE_MAX ∧ mx = n.getBackwardsKDistance ts ∧
        (∀ p ∈ P, p.2.isEvictable = true → ¬ p.2.history.length < p.2.k) ∧
        (∀ p ∈ P, p.2.isEvictable = true → p.2.getBackwardsKDistance ts ≤ mx)))

/-- Full invariant of the `evict` scan. -/
def evictInv (ts : Nat) (P : List (Nat × LRUKNode)) : Option Nat × Nat × Nat → Prop
  | (none, ear, _) => evictInvNone P ∧ ear = USIZE_MAX
  | (some f, ear, mx) => evictInvSome ts P f ear mx

lemma evictInv_append_skip (ts : Nat) (P : List (Nat × LRUKNode)) (f : Nat)
    (n : LRUKNode) (acc : Option Nat × Nat × Nat) (h : evictInv ts P acc)
    (hn : n.isEvictable = false) : evictInv ts (P ++ [(f, n)]) acc := by
  obtain ⟨fte, ear, mx⟩ := acc
  cases fte with
  | none =>
    refine ⟨fun p hp => ?_, h.2⟩
    rcases List.mem_append.mp hp with hp | hp
    · exact h.1 p hp
    · rw [List.mem_singleton.mp hp]; exact hn
  | some g =>
    obtain ⟨m, hm, hmev, hcase⟩ := h
    refine ⟨m, List.mem_append.mpr (Or.inl hm), hmev, ?_⟩
    rcases hcase with ⟨h1, h2, h3, h4⟩ | ⟨h1, h2, h3, h4, h5⟩
    · refine Or.inl ⟨h1, h2, h3, fun p hp hpe hpi => ?_⟩
      rcases List.mem_append.mp hp with hp | hp
      · exact h4 p hp hpe hpi
      · rw [List.mem_singleton.mp hp] at hpe; simp [hn] at hpe
    · refine Or.inr ⟨h1, h2, h3, fun p hp hpe => ?_, fun p hp hpe => ?_⟩
      · rcases List.mem_append.mp hp with hp | hp
        · exact h4 p hp hpe
        · rw [List.mem_singleton.mp hp] at hpe; simp [hn] at hpe
      · rcases List.mem_append.mp hp with hp | hp
        · exact h5 p hp hpe
        · rw [List.mem_singleton.mp hp] at hpe; simp [hn] at hpe

lemma evictLoop_inv (ts : Nat) (l : List (Nat × LRUKNode)) :
    ∀ (P : List (Nat × LRUKNode)) (acc : Option Nat × Nat × Nat),
      (∀ p ∈ l, p.2.history ≠ [] ∧ ∀ t ∈ p.2.history, t < USIZE_MAX) →
      evictInv ts P acc →
      evictInv ts (P ++ l) (evictLoop ts USIZE_MAX l acc) := by
  induction l with
  | nil => intro P acc _ hI; simpa [evictLoop] using hI
  | cons pn rest ih =>
    obtain ⟨f, n⟩ := pn
    intro P acc hH hI
    obtain ⟨fte, ear, mx⟩ := acc
    have hn := hH (f, n) (List.mem_cons_self _ _)
    have hrest : ∀ p ∈ rest, p.2.history ≠ [] ∧ ∀ t ∈ p.2.history, t < USIZE_MAX :=
      fun p hp => hH p (List.mem_cons_of_mem _ hp)
    rw [show P ++ (f, n) :: rest = (P ++ [(f, n)]) ++ rest by simp, evictLoop]
    apply ih _ _ hrest
    by_cases hev : n.isEvictable = true
    · simp only [hev, if_true]
      by_cases hinf : n.history.length < n.k
      · have hinfb : n.hasInfiniteBackwardsKDistance = true := by
          simp [LRUKNode.hasInfiniteBackwardsKDistance, hinf]
        obtain ⟨a, tl, hhist⟩ := List.exists_cons_of_ne_nil hn.1
        have hfa : n.history.headD USIZE_MAX = a := by rw [hhist]; rfl
        have haMAX : a < USIZE_MAX := hn.2 a (by rw [hhist]; exact List.mem_cons_self _ _)
        simp only [hinfb, if_true, hfa]
        cases fte with
        | none =>
          obtain ⟨hPn, hear⟩ := hI
          simp only [true_or, if_pos rfl]
          refine ⟨n, List.mem_append.mpr (Or.inr (List.mem_singleton.mpr rfl)), hev,
            Or.inl ⟨hinf, hfa.symm, haMAX, fun p hp hpe hpi => ?_⟩⟩
          rcases List.mem_append.mp hp with hp | hp
          · exact absurd (hPn p hp) (by simp [hpe])
          · rw [List.mem_singleton.mp hp, hfa]
        | some g =>
          obtain ⟨m, hm, hmev, hcase⟩ := hI
          rcases hcase with ⟨h1, h2, h3, h4⟩ | ⟨h1, h2, h3, h4, h5⟩
          · by_cases hlt : a < ear
            · simp only [hlt, or_true, if_true]
              refine ⟨n, List.mem_append.mpr (Or.inr (List.mem_singleton.mpr rfl)), hev,
                Or.inl ⟨hinf, hfa.symm, haMAX, fun p hp hpe hpi => ?_⟩⟩
              rcases List.mem_append.mp hp with hp | hp
              · exact le_trans (le_of_lt hlt) (h4 p hp hpe hpi)
              · rw [List.mem_singleton.mp hp, hfa]
            · have hcond : ¬ (some g = none ∨ a < ear) := by simp [hlt]
              simp only [if_neg hcond]
              refine ⟨m, List.mem_append.mpr (Or.inl hm), hmev,
                Or.inl ⟨h1, h2, h3, fun p hp hpe hpi => ?_⟩⟩
              rcases List.mem_append.mp hp with hp | hp
              · exact h4 p hp hpe hpi
              · rw [List.mem_singleton.mp hp, hfa]; exact le_of_not_lt hlt
          · have hlt : a < ear := by rw [h2]; exact haMAX
            simp only [hlt, or_true, if_true]
            refine ⟨n, List.mem_append.mpr (Or.inr (List.mem_singleton.mpr rfl)), hev,
              Or.inl ⟨hinf, hfa.symm, haMAX, fun p hp hpe hpi => ?_⟩⟩
            rcases List.mem_append.mp hp with hp | hp
            · exact absurd hpi (h4 p hp hpe)
            · rw [List.mem_singleton.mp hp, hfa]
      · have hinfb : ¬ n.hasInfiniteBackwardsKDistance = true := by
          simp [LRUKNode.hasInfiniteBackwardsKDistance, hinf]
        simp only [hinfb, if_false, if_neg hinfb]
        cases fte with
        | none =>
          obtain ⟨hPn, hear⟩ := hI
          simp only [true_or, if_pos rfl]
          refine ⟨n, List.mem_append.mpr (Or.inr (List.mem_singleton.mpr rfl)), hev,
            Or.inr ⟨hinf, hear, rfl, fun p hp hpe => ?_, fun p hp hpe => ?_⟩⟩
          · rcases List.mem_append.mp hp with hp | hp
            · exact absurd (hPn p hp) (by simp [hpe])
            · rw [List.mem_singleton.mp hp]; exact hinf
          · rcases List.mem_append.mp hp with hp | hp
            · exact absurd (hPn p hp) (by simp [hpe])
            · rw [List.mem_singleton.mp hp]
        | some g =>
          obtain ⟨m, hm, hmev, hcase⟩ := hI
          rcases hcase with ⟨h1, h2, h3, h4⟩ | ⟨h1, h2, h3, h4, h5⟩
          · have hcond : ¬ (some g = none ∨ (some g ≠ none ∧ ear = USIZE_MAX ∧
                mx < n.getBackwardsKDistance ts)) := by
              intro hc
              rcases hc with hc | ⟨_, hc2, _⟩
              · exact Option.noConfusion hc
              · exact absurd hc2 (ne_of_lt h3)
            simp only [if_neg hcond]
            refine ⟨m, List.mem_append.mpr (Or.inl hm), hmev,
              Or.inl ⟨h1, h2, h3, fun p hp hpe hpi => ?_⟩⟩
            rcases List.mem_append.mp hp with hp | hp
            · exact h4 p hp hpe hpi
            · rw [List.mem_singleton.mp hp] at hpi; exact absurd hpi hinf
          · by_cases hkd : mx < n.getBackwardsKDistance ts
            · have hcond : some g = none ∨ (some g ≠ none ∧ ear = USIZE_MAX ∧
                  mx < n.getBackwardsKDistance ts) := Or.inr ⟨by simp, h2, hkd⟩
              simp only [if_pos hcond]
              refine ⟨n, List.mem_append.mpr (Or.inr (List.mem_singleton.mpr rfl)), hev,
                Or.inr ⟨hinf, h2, rfl, fun p hp hpe => ?_, fun p hp hpe => ?_⟩⟩
              · rcases List.mem_append.mp hp with hp | hp
                · exact h4 p hp hpe
                · rw [List.mem_singleton.mp hp]; exact hinf
              · rcases List.mem_append.mp hp with hp | hp
                · exact le_trans (h5 p hp hpe) (le_of_lt hkd)
                · rw [List.mem_singleton.mp hp]
            · have hcond : ¬ (some g = none ∨ (some g ≠ none ∧ ear = USIZE_MAX ∧
                  mx < n.getBackwardsKDistance ts)) := by
                intro hc
                rcases hc with hc | ⟨_, _, hc3⟩
                · exact Option.noConfusion hc
                · exact hkd hc3
              simp only [if_neg hcond]
              refine ⟨m, List.mem_append.mpr (Or.inl hm), hmev,
                Or.inr ⟨h1, h2, h3, fun p hp hpe => ?_, fun p hp hpe => ?_⟩⟩
              · rcases List.mem_append.mp hp with hp | hp
                · exact h4 p hp hpe
                · rw [List.mem_singleton.mp hp]; exact hinf
              · rcases List.mem_append.mp hp with hp | hp
                · exact h5 p hp hpe
                · rw [List.mem_singleton.mp hp]; exact le_of_not_lt hkd
    · have hev2 : n.isEvictable = false := by
        cases h : n.isEvictable
        · rfl
        · exact absurd h hev
      simp only [hev2]
      simp only [Bool.false_eq_true, if_false]
      exact evictInv_append_skip ts P f n _ hI hev2

/-- C3: `LRUKReplacer::evict` picks its victim in two strict priority tiers
over the evictable nodes: any node with fewer than K recorded accesses
(infinite backward K-distance) is preferred over every node with K or more
accesses, and among the infinite-distance nodes one with the smallest oldest
(front-of-history) timestamp is chosen; only when no infinite-distance
evictable node exists is a node maximizing
`current_timestamp - history[len - K]` chosen.  The hypotheses (non-empty
histories with timestamps below `usize::MAX`) hold in every state reachable
through the public API. -/
theorem lru_k_evict_two_tiers (r : LRUKReplacer)
    (hh : ∀ p ∈ r.nodeStore, p.2.history ≠ [] ∧ ∀ t ∈ p.2.history, t < USIZE_MAX)
    (f : Nat) (r2 : LRUKReplacer) (he : r.evict = (some f, r2)) :
    ∃ n, (f, n) ∈ r.nodeStore ∧ n.isEvictable = true ∧
      ((∃ q ∈ r.nodeStore, q.2.isEvictable = true ∧ q.2.history.length < q.2.k) →
        n.history.length < n.k ∧
        ∀ q ∈ r.nodeStore, q.2.isEvictable = true → q.2.history.length < q.2.k →
          n.history.headD USIZE_MAX ≤ q.2.history.headD USIZE_MAX) ∧
      ((∀ q ∈ r.nodeStore, q.2.isEvictable = true → ¬ q.2.history.length < q.2.k) →
        ¬ n.history.length < n.k ∧
        ∀ q ∈ r.nodeStore, q.2.isEvictable = true →
          q.2.getBackwardsKDistance r.currentTimestamp ≤
            n.getBackwardsKDistance r.currentTimestamp) := by
  have hInv0 : evictInv r.currentTimestamp [] (none, USIZE_MAX, 0) :=
    ⟨fun p hp => absurd hp (List.not_mem_nil p), rfl⟩
  have hInv := evictLoop_inv r.currentTimestamp r.nodeStore [] (none, USIZE_MAX, 0) hh hInv0
  rw [List.nil_append] at hInv
  unfold LRUKReplacer.evict at he
  cases hc : r.evictChoice USIZE_MAX with
  | none =>
    rw [hc] at he
    exact absurd (congrArg Prod.fst he) (by simp)
  | some g =>
    rw [hc] at he
    have hg : g = f := Option.some.inj (congrArg Prod.fst he)
    unfold LRUKReplacer.evictChoice at hc
    rcases ht2 : evictLoop r.currentTimestamp USIZE_MAX r.nodeStore (none, USIZE_MAX, 0)
      with ⟨fte, ear, mx⟩
    rw [ht2] at hInv hc
    simp only at hc
    rw [hc, hg] at hInv
    obtain ⟨n, hmem, hev, hcase⟩ := hInv
    refine ⟨n, hmem, hev, fun hex => ?_, fun hnone => ?_⟩
    · rcases hcase with ⟨h1, h2, _, h4⟩ | ⟨_, _, _, h4, _⟩
      · exact ⟨h1, fun q hq hqe hqi => by rw [← h2]; exact h4 q hq hqe hqi⟩
      · obtain ⟨q, hq, hqe, hqi⟩ := hex
        exact absurd hqi (h4 q hq hqe)
    · rcases hcase with ⟨h1, _, _, _⟩ | ⟨h1, _, h3, _, h5⟩
      · exact absurd h1 (hnone (f, n) hmem hev)
      · exact ⟨h1, fun q hq hqe => by rw [← h3]; exact h5 q hq hqe⟩

/-- A concrete replacer state used to witness `lru_k_evict_two_tiers`. -/
def c3R : LRUKReplacer :=
  { nodeStore := [(0, ⟨[0], 2, true⟩), (1, ⟨[1, 2], 2, true⟩)],
    currentTimestamp := 3, currSize := 2, maxSize := 2, k := 2 }

/-- The replacer state after `c3R.evict`. -/
def c3R2 : LRUKReplacer :=
  { nodeStore := [(1, ⟨[1, 2], 2, true⟩)],
    currentTimestamp := 3, currSize := 1, maxSize := 2, k := 2 }

/-- Witness for `lru_k_evict_two_tiers` at a concrete two-node state: the
infinite-distance frame 0 is evicted in preference to the finite-distance
frame 1. -/
theorem lru_k_evict_two_tiers_witness :
    (∀ p ∈ c3R.nodeStore, p.2.history ≠ [] ∧ ∀ t ∈ p.2.history, t < USIZE_MAX) ∧
    (∃ n, (0, n) ∈ c3R.nodeStore ∧ n.isEvictable = true ∧
      ((∃ q ∈ c3R.nodeStore, q.2.isEvictable = true ∧ q.2.history.length < q.2.k) →
        n.history.length < n.k ∧
        ∀ q ∈ c3R.nodeStore, q.2.isEvictable = true → q.2.history.length < q.2.k →
          n.history.headD USIZE_MAX ≤ q.2.history.headD USIZE_MAX) ∧
      ((∀ q ∈ c3R.nodeStore, q.2.isEvictable = true → ¬ q.2.history.length < q.2.k) →
        ¬ n.history.length < n.k ∧
        ∀ q ∈ c3R.nodeStore, q.2.isEvictable = true →
          q.2.getBackwardsKDistance c3R.currentTimestamp ≤
            n.getBackwardsKDistance c3R.currentTimestamp)) :=
  ⟨by decide, lru_k_evict_two_tiers c3R (by decide) 0 c3R2 (by decide)⟩

/-! ## Association-list lemmas (for the replacer invariants) -/

lemma lookupA_some_mem {α : Type} (f : Nat) (n : α) :
    ∀ l : List (Nat × α), lookupA f l = some n → (f, n) ∈ l := by
  intro l
  induction l with
  | nil => intro h; exact absurd h (by simp [lookupA])
  | cons p rest ih =>
    intro h
    by_cases hp : p.1 = f
    · rw [lookupA, if_pos hp] at h
      have : p = (f, n) := Prod.ext hp (Option.some.inj h)
      rw [← this]; exact List.mem_cons_self _ _
    · rw [lookupA, if_neg hp] at h
      exact List.mem_cons_of_mem _ (ih h)

lemma lookupA_eq_none {α : Type} (f : Nat) :
    ∀ l : List (Nat × α), lookupA f l = none ↔ f ∉ l.map Prod.fst := by
  intro l
  induction l with
  | nil => simp [lookupA]
  | cons p rest ih =>
    by_cases hp : p.1 = f
    · simp [lookupA, hp]
    · simp [lookupA, hp, ih, Ne.symm hp]

lemma mem_lookupA {α : Type} (f : Nat) (n : α) :
    ∀ l : List (Nat × α), (l.map Prod.fst).Nodup → (f, n) ∈ l → lookupA f l = some n := by
  intro l
  induction l with
  | nil => intro _ h; exact absurd h (List.not_mem_nil _)
  | cons p rest ih =>
    intro hnd hmem
    rw [List.map_cons] at hnd
    obtain ⟨hnotin, hnd2⟩ := List.nodup_cons.mp hnd
    rcases List.mem_cons.mp hmem with hmem | hmem
    · rw [← hmem, lookupA, if_pos rfl]
    · have hp : p.1 ≠ f := by
        intro hc
        exact hnotin (by rw [hc]; exact List.mem_map.mpr ⟨(f, n), hmem, rfl⟩)
      rw [lookupA, if_neg hp]
      exact ih hnd2 hmem

lemma replaceA_keys {α : Type} (f : Nat) (v : α) :
    ∀ l : List (Nat × α), (replaceA f v l).map Prod.fst = l.map Prod.fst := by
  intro l
  induction l with
  | nil => rfl
  | cons p rest ih =>
    show (if p.1 = f then (f, v) else p).1 :: _ = _
    by_cases hp : p.1 = f
    · rw [if_pos hp]
      exact congrArg₂ _ hp.symm ih
    · rw [if_neg hp]
      exact congrArg₂ _ rfl ih

lemma replaceA_of_absent {α : Type} (f : Nat) (v : α) :
    ∀ l : List (Nat × α), lookupA f l = none → replaceA f v l = l := by
  intro l
  induction l with
  | nil => intro _; rfl
  | cons p rest ih =>
    intro h
    by_cases hp : p.1 = f
    · rw [lookupA, if_pos hp] at h; exact absurd h (by simp)
    · rw [lookupA, if_neg hp] at h
      show (if p.1 = f then (f, v) else p) :: replaceA f v rest = _
      rw [if_neg hp, ih h]

lemma eraseA_of_absent {α : Type} (f : Nat) :
    ∀ l : List (Nat × α), lookupA f l = none → eraseA f l = l := by
  intro l
  induction l with
  | nil => intro _; rfl
  | cons p rest ih =>
    intro h
    by_cases hp : p.1 = f
    · rw [lookupA, if_pos hp] at h; exact absurd h (by simp)
    · rw [lookupA, if_neg hp] at h
      show List.filter _ (p :: rest) = _
      rw [List.filter_cons_of_pos (by simpa using hp)]
      exact congrArg _ (ih h)

lemma countEv_cons (p : Nat × LRUKNode) (l : List (Nat × LRUKNode)) :
    countEvictable (p :: l) = (if p.2.isEvictable then 1 else 0) + countEvictable l := by
  by_cases h : p.2.isEvictable
  · simp [countEvictable, List.filter_cons, h, Nat.add_comm]
  · simp [countEvictable, List.filter_cons, h]

lemma countEv_replaceA (f : Nat) (v n : LRUKNode) :
    ∀ l : List (Nat × LRUKNode), (l.map Prod.fst).Nodup → lookupA f l = some n →
      countEvictable (replaceA f v l) + (if n.isEvictable then 1 else 0)
        = countEvictable l + (if v.isEvictable then 1 else 0) := by
  intro l
  induction l with
  | nil => intro _ h; exact absurd h (by simp [lookupA])
  | cons p rest ih =>
    intro hnd h
    rw [List.map_cons] at hnd
    obtain ⟨hnotin, hnd2⟩ := List.nodup_cons.mp hnd
    by_cases hp : p.1 = f
    · rw [lookupA, if_pos hp] at h
      have hn : n = p.2 := (Option.some.inj h).symm
      have habs : lookupA f rest = none := by
        rw [lookupA_eq_none]
        intro hc
        exact hnotin (by rw [hp]; exact hc)
      show countEvictable ((if p.1 = f then (f, v) else p) :: replaceA f v rest) + _ = _
      rw [if_pos hp, replaceA_of_absent f v rest habs, countEv_cons, countEv_cons, hn]
      by_cases h1 : p.2.isEvictable <;> by_cases h2 : v.isEvictable <;>
        simp [h1, h2] <;> omega
    · rw [lookupA, if_neg hp] at h
      show countEvictable ((if p.1 = f then (f, v) else p) :: replaceA f v rest) + _ = _
      rw [if_neg hp, countEv_cons, countEv_cons]
      have := ih hnd2 h
      omega

lemma countEv_eraseA (f : Nat) (n : LRUKNode) :
    ∀ l : List (Nat × LRUKNode), (l.map Prod.fst).Nodup → lookupA f l = some n →
      countEvictable (eraseA f l) + (if n.isEvictable then 1 else 0) = countEvictable l := by
  intro l
  induction l with
  | nil => intro _ h; exact absurd h (by simp [lookupA])
  | cons p rest ih =>
    intro hnd h
    rw [List.map_cons] at hnd
    obtain ⟨hnotin, hnd2⟩ := List.nodup_cons.mp hnd
    by_cases hp : p.1 = f
    · rw [lookupA, if_pos hp] at h
      have hn : n = p.2 := (Option.some.inj h).symm
      have habs : lookupA f rest = none := by
        rw [lookupA_eq_none]
        intro hc
        exact hnotin (by rw [hp]; exact hc)
      show countEvictable (List.filter _ (p :: rest)) + _ = _
      rw [List.filter_cons_of_neg (by simp [hp])]
      have hview : List.filter (fun q => decide ¬ q.1 = f) rest = eraseA f rest := rfl
      rw [hview, eraseA_of_absent f rest habs, countEv_cons, hn]
      omega
    · rw [lookupA, if_neg hp] at h
      show countEvictable (List.filter _ (p :: rest)) + _ = _
      rw [List.filter_cons_of_pos (by simpa using hp)]
      have hview : List.filter (fun q => decide ¬ q.1 = f) rest = eraseA f rest := rfl
      rw [hview, countEv_cons, countEv_cons]
      have := ih hnd2 h
      omega

lemma eraseA_keys_sublist {α : Type} (f : Nat) (l : List (Nat × α)) :
    ((eraseA f l).map Prod.fst).Sublist (l.map Prod.fst) :=
  List.Sublist.map Prod.fst (List.filter_sublist l)

lemma insertA_keys_nodup (f : Nat) (v : LRUKNode) (l : List (Nat × LRUKNode))
    (hnd : (l.map Prod.fst).Nodup) : ((insertA f v l).map Prod.fst).Nodup := by
  unfold insertA
  by_cases h : (lookupA f l).isSome
  · rw [if_pos h, replaceA_keys]; exact hnd
  · rw [if_neg h]
    have habs : lookupA f l = none := by
      cases hc : lookupA f l
      · rfl
      · rw [hc] at h; simp at h
    rw [List.map_append]
    simp only [List.map_cons, List.map_nil]
    rw [List.nodup_append]
    refine ⟨hnd, List.nodup_singleton f, fun a ha => ?_⟩
    simp only [List.mem_singleton]
    intro hc
    rw [hc] at ha
    exact (lookupA_eq_none f l).mp habs ha

lemma countEv_insertA_same (f : Nat) (v : LRUKNode) (l : List (Nat × LRUKNode))
    (hnd : (l.map Prod.fst).Nodup)
    (hflag : ∀ n, lookupA f l = some n → v.isEvictable = n.isEvictable)
    (hnew : lookupA f l = none → v.isEvictable = false) :
    countEvictable (insertA f v l) = countEvictable l := by
  unfold insertA
  cases hc : lookupA f l with
  | none =>
    rw [if_neg (by simp)]
    have : countEvictable (l ++ [(f, v)]) = countEvictable l := by
      unfold countEvictable
      rw [List.filter_append]
      simp [hnew hc]
    exact this
  | some n =>
    rw [if_pos (by simp)]
    have := countEv_replaceA f v n l hnd hc
    rw [hflag n hc] at this
    omega

/-! ## The `curr_size` invariant (for C8) -/

/-- The replacer bookkeeping invariant: keys of the node store are distinct
(it models a `HashMap`) and `curr_size` counts the evictable nodes. -/
def sizeInv (r : LRUKReplacer) : Prop :=
  (r.nodeStore.map Prod.fst).Nodup ∧ r.currSize = countEvictable r.nodeStore

/-- If the `evict` scan produces a candidate, that candidate is an
evictable node of the store (no hypotheses needed). -/
lemma evictLoop_some_evictable (ts fb : Nat) :
    ∀ (l P : List (Nat × LRUKNode)) (acc : Option Nat × Nat × Nat),
      (∀ g, acc.1 = some g → ∃ n, (g, n) ∈ P ∧ n.isEvictable = true) →
      ∀ g, (evictLoop ts fb l acc).1 = some g →
        ∃ n, (g, n) ∈ P ++ l ∧ n.isEvictable = true := by
  intro l
  induction l with
  | nil =>
    intro P acc hacc g hg
    rw [evictLoop] at hg
    obtain ⟨n, hn, he⟩ := hacc g hg
    exact ⟨n, by simpa using hn, he⟩
  | cons pn rest ih =>
    obtain ⟨f, n⟩ := pn
    intro P acc hacc g hg
    obtain ⟨fte, ear, mx⟩ := acc
    rw [evictLoop] at hg
    rw [show P ++ (f, n) :: rest = (P ++ [(f, n)]) ++ rest by simp]
    refine ih (P ++ [(f, n)]) _ ?_ g hg
    intro g2 hg2
    by_cases hev : n.isEvictable = true
    · simp only [hev, if_true] at hg2
      by_cases hinf : n.hasInfiniteBackwardsKDistance = true
      · simp only [hinf, if_true] at hg2
        by_cases hcond : fte = none ∨ n.history.headD fb < ear
        · rw [if_pos hcond] at hg2
          simp only at hg2
          exact ⟨n, List.mem_append.mpr (Or.inr (by rw [← Option.some.inj hg2]; simp)), hev⟩
        · rw [if_neg hcond] at hg2
          obtain ⟨m, hm, hme⟩ := hacc g2 hg2
          exact ⟨m, List.mem_append.mpr (Or.inl hm), hme⟩
      · simp only [hinf, if_false] at hg2
        rw [if_neg (by simpa using hinf)] at hg2
        by_cases hcond : fte = none ∨
            (fte ≠ none ∧ ear = USIZE_MAX ∧ mx < n.getBackwardsKDistance ts)
        · rw [if_pos hcond] at hg2
          simp only at hg2
          exact ⟨n, List.mem_append.mpr (Or.inr (by rw [← Option.some.inj hg2]; simp)), hev⟩
        · rw [if_neg hcond] at hg2
          obtain ⟨m, hm, hme⟩ := hacc g2 hg2
          exact ⟨m, List.mem_append.mpr (Or.inl hm), hme⟩
    · simp only [hev, if_false] at hg2
      rw [if_neg (by simpa using hev)] at hg2
      obtain ⟨m, hm, hme⟩ := hacc g2 hg2
      exact ⟨m, List.mem_append.mpr (Or.inl hm), hme⟩

lemma evictChoice_some_evictable (r : LRUKReplacer) (fb g : Nat)
    (hg : r.evictChoice fb = some g) :
    ∃ n, (g, n) ∈ r.nodeStore ∧ n.isEvictable = true := by
  unfold LRUKReplacer.evictChoice at hg
  have := evictLoop_some_evictable r.currentTimestamp fb r.nodeStore []
    (none, USIZE_MAX, 0) (fun g2 hg2 => by simp at hg2) g hg
  simpa using this

lemma sizeInv_recordAccess (r r2 : LRUKReplacer) (f : Nat)
    (hI : sizeInv r) (h : r.recordAccess f = some r2) : sizeInv r2 := by
  unfold LRUKReplacer.recordAccess at h
  by_cases hf : r.maxSize ≤ f
  · rw [if_pos hf] at h; exact absurd h (by simp)
  · rw [if_neg hf] at h
    obtain ⟨hnd, hcnt⟩ := hI
    have h2 := (Option.some.inj h).symm
    constructor
    · rw [h2]
      exact insertA_keys_nodup f _ r.nodeStore hnd
    · rw [h2]
      show r.currSize = countEvictable (insertA f _ r.nodeStore)
      rw [countEv_insertA_same f _ r.nodeStore hnd ?_ ?_]
      · exact hcnt
      · intro n hn
        simp only [hn]
        cases hL : (LRUKNode.new r.k).isEvictable
        · by_cases hlen : n.history.length = r.k <;> simp [hn, hlen, Option.getD]
        · simp [LRUKNode.new] at hL
      · intro hn
        by_cases hlen : (LRUKNode.new r.k).history.length = r.k <;>
          simp [hn, hlen, Option.getD, LRUKNode.new]

lemma sizeInv_setEvictable (r r2 : LRUKReplacer) (f : Nat) (b : Bool)
    (hI : sizeInv r) (h : r.setEvictable f b = some r2) : sizeInv r2 := by
  unfold LRUKReplacer.setEvictable at h
  by_cases hf : r.maxSize ≤ f
  · rw [if_pos hf] at h; exact absurd h (by simp)
  · rw [if_neg hf] at h
    obtain ⟨hnd, hcnt⟩ := hI
    cases hc : lookupA f r.nodeStore with
    | none =>
      rw [hc] at h
      rw [← Option.some.inj h]
      exact ⟨hnd, hcnt⟩
    | some n =>
      rw [hc] at h
      dsimp only at h
      by_cases htr : n.isEvictable ≠ b
      · rw [if_pos htr] at h
        have h2 := (Option.some.inj h).symm
        have hrep := countEv_replaceA f { n with isEvictable := b } n r.nodeStore hnd hc
        have hge : (if n.isEvictable then 1 else 0) ≤ countEvictable r.nodeStore := by
          cases hb : n.isEvictable
          · simp
          · simp only [hb, if_true]
            have hm := lookupA_some_mem f n r.nodeStore hc
            have : n ∈ (r.nodeStore.filter (fun p => p.2.isEvictable)).map Prod.snd := by
              exact List.mem_map.mpr ⟨(f, n), List.mem_filter.mpr ⟨hm, by simp [hb]⟩, rfl⟩
            have hne : (r.nodeStore.filter (fun p => p.2.isEvictable)) ≠ [] := by
              intro hnil
              rw [hnil] at this
              exact absurd this (by simp)
            have := List.length_pos.mpr hne
            unfold countEvictable
            omega
        constructor
        · rw [h2]
          show ((replaceA f _ r.nodeStore).map Prod.fst).Nodup
          rw [replaceA_keys]
          exact hnd
        · rw [h2]
          show (if b then r.currSize + 1 else r.currSize - 1) = _
          cases hb : n.isEvictable <;> cases b <;> simp_all <;> omega
      · rw [if_neg htr] at h
        rw [← Option.some.inj h]
        exact ⟨hnd, hcnt⟩

lemma sizeInv_evict (r : LRUKReplacer) (hI : sizeInv r) : sizeInv (r.evict).2 := by
  unfold LRUKReplacer.evict
  cases hc : r.evictChoice USIZE_MAX with
  | none => exact hI
  | some g =>
    obtain ⟨hnd, hcnt⟩ := hI
    obtain ⟨n, hmem, hev⟩ := evictChoice_some_evictable r USIZE_MAX g hc
    have hlk := mem_lookupA g n r.nodeStore hnd hmem
    have herase := countEv_eraseA g n r.nodeStore hnd hlk
    constructor
    · exact List.Nodup.sublist (eraseA_keys_sublist g r.nodeStore) hnd
    · show r.currSize - 1 = countEvictable (eraseA g r.nodeStore)
      rw [hev] at herase
      simp only [if_true] at herase
      omega

lemma sizeInv_remove (r r2 : LRUKReplacer) (f : Nat)
    (hI : sizeInv r) (h : r.remove f = some r2) : sizeInv r2 := by
  unfold LRUKReplacer.remove at h
  obtain ⟨hnd, hcnt⟩ := hI
  cases hc : lookupA f r.nodeStore with
  | none =>
    rw [hc] at h
    rw [← Option.some.inj h]
    exact ⟨hnd, hcnt⟩
  | some n =>
    rw [hc] at h
    dsimp only at h
    by_cases hev : n.isEvictable = false
    · rw [if_pos hev] at h; exact absurd h (by simp)
    · rw [if_neg hev] at h
      by_cases hz : r.currSize = 0
      · rw [if_pos hz] at h; exact absurd h (by simp)
      · rw [if_neg hz] at h
        have h2 := (Option.some.inj h).symm
        have herase := countEv_eraseA f n r.nodeStore hnd hc
        have hevt : n.isEvictable = true := by
          cases hb : n.isEvictable
          · exact absurd hb hev
          · rfl
        rw [hevt] at herase
        simp only [if_true] at herase
        constructor
        · rw [h2]
          exact List.Nodup.sublist (eraseA_keys_sublist f r.nodeStore) hnd
        · rw [h2]
          show r.currSize - 1 = countEvictable (eraseA f r.nodeStore)
          omega

lemma runROps_sizeInv : ∀ (ops : List ROp) (r r2 : LRUKReplacer),
    sizeInv r → runROps ops r = some r2 → sizeInv r2 := by
  intro ops
  induction ops with
  | nil =>
    intro r r2 hI h
    rw [runROps] at h
    rw [← Option.some.inj h]
    exact hI
  | cons op rest ih =>
    intro r r2 hI h
    rw [runROps] at h
    cases hc : applyROp op r with
    | none => rw [hc] at h; exact absurd h (by simp)
    | some rmid =>
      rw [hc] at h
      refine ih rmid r2 ?_ h
      cases op with
      | recA f => exact sizeInv_recordAccess r rmid f hI hc
      | setEv f b => exact sizeInv_setEvictable r rmid f b hI hc
      | evict =>
        have := sizeInv_evict r hI
        rw [show rmid = (r.evict).2 from (Option.some.inj hc).symm]
        exact this
      | rem f => exact sizeInv_remove r rmid f hI hc

/-- C8: after every sequence of public `LRUKReplacer` operations
(`record_access`, `set_evictable`, `evict`, `remove`) starting from
`LRUKReplacer::new`, `curr_size` equals the number of nodes in `node_store`
with `is_evictable = true`, and `size()` returns this value.  (`1 ≤ k`
matches the builder assertion `k > 0`; at `k = 0` the Rust `evict` would
panic on an out-of-range index.) -/
theorem replacer_curr_size_counts_evictable (ops : List ROp) (n k : Nat)
    (r2 : LRUKReplacer) (hk : 1 ≤ k)
    (hrun : runROps ops (LRUKReplacer.new n k) = some r2) :
    r2.currSize = countEvictable r2.nodeStore ∧ r2.size = countEvictable r2.nodeStore := by
  have hinit : sizeInv (LRUKReplacer.new n k) := ⟨by simp [LRUKReplacer.new], rfl⟩
  have := runROps_sizeInv ops (LRUKReplacer.new n k) r2 hinit hrun
  exact ⟨this.2, this.2⟩

/-- The replacer state after the concrete operation sequence used to
witness `replacer_curr_size_counts_evictable`. -/
def c8R2 : LRUKReplacer :=
  { nodeStore := [(1, ⟨[1], 2, false⟩)], currentTimestamp := 2,
    currSize := 0, maxSize := 2, k := 2 }

/-- Witness for `replacer_curr_size_counts_evictable` on a concrete
operation sequence. -/
theorem replacer_curr_size_counts_evictable_witness :
    (1 ≤ 2 ∧ runROps [.recA 0, .setEv 0 true, .recA 1, .evict]
        (LRUKReplacer.new 2 2) = some c8R2) ∧
    (c8R2.currSize = countEvictable c8R2.nodeStore ∧
      c8R2.size = countEvictable c8R2.nodeStore) :=
  ⟨⟨by decide, by decide⟩,
    replacer_curr_size_counts_evictable [.recA 0, .setEv 0 true, .recA 1, .evict] 2 2
      c8R2 (by decide) (by decide)⟩

/-! ## Non-empty histories (for C10) -/

/-- Every node of the store carries at least one recorded timestamp. -/
def histNE (r : LRUKReplacer) : Prop :=
  ∀ p ∈ r.nodeStore, p.2.history ≠ []

lemma mem_replaceA {α : Type} (f : Nat) (v : α) (l : List (Nat × α)) (q : Nat × α)
    (h : q ∈ replaceA f v l) : q = (f, v) ∨ q ∈ l := by
  obtain ⟨p, hp, hq⟩ := List.mem_map.mp h
  by_cases hc : p.1 = f
  · rw [if_pos hc] at hq; exact Or.inl hq.symm
  · rw [if_neg hc] at hq; exact Or.inr (hq ▸ hp)

lemma mem_insertA {α : Type} (f : Nat) (v : α) (l : List (Nat × α)) (q : Nat × α)
    (h : q ∈ insertA f v l) : q = (f, v) ∨ q ∈ l := by
  unfold insertA at h
  by_cases hc : (lookupA f l).isSome
  · rw [if_pos hc] at h; exact mem_replaceA f v l q h
  · rw [if_neg hc] at h
    rcases List.mem_append.mp h with h | h
    · exact Or.inr h
    · exact Or.inl (List.mem_singleton.mp h)

lemma mem_eraseA {α : Type} (f : Nat) (l : List (Nat × α)) (q : Nat × α)
    (h : q ∈ eraseA f l) : q ∈ l :=
  List.mem_of_mem_filter h

lemma histNE_recordAccess (r r2 : LRUKReplacer) (f : Nat)
    (hI : histNE r) (h : r.recordAccess f = some r2) : histNE r2 := by
  unfold LRUKReplacer.recordAccess at h
  by_cases hf : r.maxSize ≤ f
  · rw [if_pos hf] at h; exact absurd h (by simp)
  · rw [if_neg hf] at h
    intro p hp
    rw [← Option.some.inj h] at hp
    rcases mem_insertA _ _ _ _ hp with hq | hq
    · rw [hq]; simp
    · exact hI p hq

lemma histNE_setEvictable (r r2 : LRUKReplacer) (f : Nat) (b : Bool)
    (hI : histNE r) (h : r.setEvictable f b = some r2) : histNE r2 := by
  unfold LRUKReplacer.setEvictable at h
  by_cases hf : r.maxSize ≤ f
  · rw [if_pos hf] at h; exact absurd h (by simp)
  · rw [if_neg hf] at h
    cases hc : lookupA f r.nodeStore with
    | none =>
      rw [hc] at h
      rw [← Option.some.inj h]
      exact hI
    | some n =>
      rw [hc] at h
      dsimp only at h
      by_cases htr : n.isEvictable ≠ b
      · rw [if_pos htr] at h
        intro p hp
        rw [← Option.some.inj h] at hp
        rcases mem_replaceA _ _ _ _ hp with hq | hq
        · rw [hq]
          exact hI (f, n) (lookupA_some_mem f n r.nodeStore hc)
        · exact hI p hq
      · rw [if_neg htr] at h
        rw [← Option.some.inj h]
        exact hI

lemma histNE_evict (r : LRUKReplacer) (hI : histNE r) : histNE (r.evict).2 := by
  unfold LRUKReplacer.evict
  cases hc : r.evictChoice USIZE_MAX with
  | none => exact hI
  | some g =>
    intro p hp
    exact hI p (mem_eraseA g r.nodeStore p hp)

lemma histNE_remove (r r2 : LRUKReplacer) (f : Nat)
    (hI : histNE r) (h : r.remove f = some r2) : histNE r2 := by
  unfold LRUKReplacer.remove at h
  cases hc : lookupA f r.nodeStore with
  | none =>
    rw [hc] at h
    rw [← Option.some.inj h]
    exact hI
  | some n =>
    rw [hc] at h
    dsimp only at h
    by_cases hev : n.isEvictable = false
    · rw [if_pos hev] at h; exact absurd h (by simp)
    · rw [if_neg hev] at h
      by_cases hz : r.currSize = 0
      · rw [if_pos hz] at h; exact absurd h (by simp)
      · rw [if_neg hz] at h
        intro p hp
        rw [← Option.some.inj h] at hp
        exact hI p (mem_eraseA f r.nodeStore p hp)

lemma runROps_histNE : ∀ (ops : List ROp) (r r2 : LRUKReplacer),
    histNE r → runROps ops r = some r2 → histNE r2 := by
  intro ops
  induction ops with
  | nil =>
    intro r r2 hI h
    rw [runROps] at h
    rw [← Option.some.inj h]
    exact hI
  | cons op rest ih =>
    intro r r2 hI h
    rw [runROps] at h
    cases hc : applyROp op r with
    | none => rw [hc] at h; exact absurd h (by simp)
    | some rmid =>
      rw [hc] at h
      refine ih rmid r2 ?_ h
      cases op with
      | recA f => exact histNE_recordAccess r rmid f hI hc
      | setEv f b => exact histNE_setEvictable r rmid f b hI hc
      | evict =>
        rw [show rmid = (r.evict).2 from (Option.some.inj hc).symm]
        exact histNE_evict r hI
      | rem f => exact histNE_remove r rmid f hI hc

/-- When every node of the scanned list has a non-empty history, the
fallback value passed for `history.front().unwrap_or(..)` is never
consulted: the scan result is independent of it. -/
lemma evictLoop_fb_irrelevant (ts v : Nat) :
    ∀ (l : List (Nat × LRUKNode)), (∀ p ∈ l, p.2.history ≠ []) →
      ∀ acc, evictLoop ts v l acc = evictLoop ts USIZE_MAX l acc := by
  intro l
  induction l with
  | nil => intro _ acc; rfl
  | cons pn rest ih =>
    obtain ⟨f, n⟩ := pn
    intro hH acc
    obtain ⟨fte, ear, mx⟩ := acc
    have hn : n.history ≠ [] := hH (f, n) (List.mem_cons_self _ _)
    have hrest : ∀ p ∈ rest, p.2.history ≠ [] :=
      fun p hp => hH p (List.mem_cons_of_mem _ hp)
    rw [evictLoop, evictLoop]
    rw [ih hrest]
    obtain ⟨a, tl, hhist⟩ := List.exists_cons_of_ne_nil hn
    have hfa : ∀ w : Nat, n.history.headD w = a := by
      intro w; rw [hhist]; rfl
    rw [hfa v, hfa USIZE_MAX]

lemma evictChoice_fb_irrelevant (r : LRUKReplacer) (hI : histNE r) (v : Nat) :
    r.evictChoice v = r.evictChoice USIZE_MAX := by
  unfold LRUKReplacer.evictChoice
  rw [evictLoop_fb_irrelevant r.currentTimestamp v r.nodeStore hI]

/-- C10: after every sequence of public `LRUKReplacer` operations starting
from `LRUKReplacer::new`, every node present in `node_store` has a
non-empty history (nodes are only created inside `record_access`, which
immediately appends a timestamp); consequently the empty-history fallback
`unwrap_or(&usize::MAX)` in `evict` is unreachable — the eviction choice is
the same for every fallback value. -/
theorem replacer_histories_nonempty (ops : List ROp) (n k : Nat)
    (r2 : LRUKReplacer) (hk : 1 ≤ k)
    (hrun : runROps ops (LRUKReplacer.new n k) = some r2) :
    (∀ p ∈ r2.nodeStore, p.2.history ≠ []) ∧
    ∀ v, r2.evictChoice v = r2.evictChoice USIZE_MAX := by
  have hinit : histNE (LRUKReplacer.new n k) := fun p hp => absurd hp (by simp [LRUKReplacer.new])
  have hne := runROps_histNE ops (LRUKReplacer.new n k) r2 hinit hrun
  exact ⟨hne, fun v => evictChoice_fb_irrelevant r2 hne v⟩

/-- The replacer state after the concrete operation sequence used to
witness `replacer_histories_nonempty`. -/
def c10R2 : LRUKReplacer :=
  { nodeStore := [(0, ⟨[0], 2, true⟩), (1, ⟨[1], 2, false⟩)], currentTimestamp := 2,
    currSize := 1, maxSize := 2, k := 2 }

/-- Witness for `replacer_histories_nonempty` on a concrete operation
sequence. -/
theorem replacer_histories_nonempty_witness :
    (1 ≤ 2 ∧ runROps [.recA 0, .setEv 0 true, .recA 1]
        (LRUKReplacer.new 2 2) = some c10R2) ∧
    ((∀ p ∈ c10R2.nodeStore, p.2.history ≠ []) ∧
      ∀ v, c10R2.evictChoice v = c10R2.evictChoice USIZE_MAX) :=
  ⟨⟨by decide, by decide⟩,
    replacer_histories_nonempty [.recA 0, .setEv 0 true, .recA 1] 2 2 c10R2
      (by decide) (by decide)⟩

/-! ## Buffer pool manager (from `buffer_pool_manager.rs`) -/

/-- Modelled from the spec: the page object is an external collaborator
(spec §1, §6) consumed through its `is_dirty` bit, `set_is_dirty`, and a
sentinel invalid-page value; page content is opaque to the pool and is not
modelled.  `pid = none` is the sentinel of `TablePage::create_invalid_page`. -/
structure Page where
  pid : Option Nat
  isDirty : Bool
deriving DecidableEq, Repr

/-- `TablePage::create_invalid_page`. -/
def Page.invalid : Page := { pid := none, isDirty := false }

/-- `Page::set_is_dirty`. -/
def Page.setIsDirty (p : Page) (b : Bool) : Page := { p with isDirty := b }

/-- Modelled from the spec: the disk manager is an external collaborator
(spec §1, §6) with `allocate_new_page`, `read_page`, `write_page` and
`deallocate_page`.  `nextPid` issues fresh page ids; `writes` and
`deallocs` log the calls to `write_page` / `deallocate_page` so that the
theorems can observe them. -/
structure Disk where
  nextPid : Nat
  writes : List Page
  deallocs : List Nat
deriving DecidableEq, Repr

/-- `DiskManager::allocate_new_page`. -/
def Disk.allocateNewPage (d : Disk) : Nat × Disk :=
  (d.nextPid, { d with nextPid := d.nextPid + 1 })

/-- `DiskManager::read_page`: returns the on-disk image of the page, which
is clean. -/
def Disk.readPage (pid : Nat) : Page := { pid := some pid, isDirty := false }

/-- `DiskManager::write_page`. -/
def Disk.writePage (d : Disk) (p : Page) : Disk := { d with writes := d.writes ++ [p] }

/-- `DiskManager::deallocate_page`. -/
def Disk.deallocatePage (d : Disk) (pid : Nat) : Disk :=
  { d with deallocs := d.deallocs ++ [pid] }

/-- A fresh disk. -/
def Disk.new : Disk := { nextPid := 0, writes := [], deallocs := [] }

/-- `FrameMetadata`. -/
structure FrameMetadata where
  frameId : Nat
  pinCount : Nat
deriving DecidableEq, Repr

/-- `BufferPoolManager` state: `pages` is the `Vec<TablePageHandle>`,
`pageTable` the `HashMap<PageId, FrameMetadata>`, `freeList` the
`VecDeque<FrameId>`. -/
structure BPM where
  poolSize : Nat
  pages : List Page
  pageTable : List (Nat × FrameMetadata)
  disk : Disk
  replacer : LRUKReplacer
  freeList : List Nat
deriving DecidableEq, Repr

/-- `BufferPoolManager::new`. -/
def BPM.new (poolSize replacerK : Nat) (d : Disk) : BPM :=
  { poolSize := poolSize, pages := [], pageTable := [], disk := d,
    replacer := LRUKReplacer.new poolSize replacerK,
    freeList := List.range poolSize }

/-- The `resize_with` call guarding frame access:
`if frame_id >= pages.len() { pages.resize_with(frame_id + 1, invalid) }`. -/
def resizePages (l : List Page) (frameId : Nat) : List Page :=
  if l.length ≤ frameId then l ++ List.replicate (frameId + 1 - l.length) Page.invalid
  else l

/-- The shared victim-selection: pop the front of the free list, else ask
the replacer to evict. -/
def BPM.victim (s : BPM) : Option Nat × BPM :=
  match s.freeList with
  | f :: rest => (some f, { s with freeList := rest })
  | [] =>
    match s.replacer.evict with
    | (of, r2) => (of, { s with replacer := r2 })

/-- `BufferPoolManager::new_page`.  Outer `none` models a panic (only
possible inside `record_access`); `some (none, s)` models the `None`
return. -/
def BPM.newPage (s : BPM) : Option (Option Nat × BPM) :=
  match s.victim with
  | (none, s1) => some (none, s1)
  | (some f, s1) =>
    let s2 := { s1 with pages := resizePages s1.pages f }
    match s2.disk.allocateNewPage with
    | (pid, d2) =>
      let pg := Disk.readPage pid
      let s3 := { s2 with disk := d2, pages := s2.pages.set f pg,
                          pageTable := insertA pid ⟨f, 0⟩ s2.pageTable }
      match lookupA pid s3.pageTable with
      | none => some (none, s3)
      | some fm =>
        let s4 := { s3 with
          pageTable := replaceA pid ⟨fm.frameId, fm.pinCount + 1⟩ s3.pageTable }
        match s4.replacer.recordAccess f with
        | none => none
        | some r2 => some (some pid, { s4 with replacer := r2 })

/-- `BufferPoolManager::fetch_page`.  The returned value is the fetched
page (the content of the returned handle); `some (none, s)` models the
`None` return. -/
def BPM.fetchPage (s : BPM) (pid : Nat) : Option (Option Page × BPM) :=
  match lookupA pid s.pageTable with
  | some fm =>
    let s1 := { s with pages := resizePages s.pages fm.frameId }
    match s1.pages.get? fm.frameId with
    | none => some (none, s1)
    | some pg =>
      match lookupA pid s1.pageTable with
      | none => some (none, s1)
      | some fm2 =>
        let s2 := { s1 with
          pageTable := replaceA pid ⟨fm2.frameId, fm2.pinCount + 1⟩ s1.pageTable }
        match s2.replacer.recordAccess fm.frameId with
        | none => none
        | some r2 => some (some pg, { s2 with replacer := r2 })
  | none =>
    match s.victim with
    | (none, s1) => some (none, s1)
    | (some f, s1) =>
      let s2 := { s1 with pages := resizePages s1.pages f }
      let pg := Disk.readPage pid
      let s3 := { s2 with pages := s2.pages.set f pg,
                          pageTable := insertA pid ⟨f, 0⟩ s2.pageTable }
      match lookupA pid s3.pageTable with
      | none => some (none, s3)
      | some fm =>
        let s4 := { s3 with
          pageTable := replaceA pid ⟨fm.frameId, fm.pinCount + 1⟩ s3.pageTable }
        match s4.replacer.recordAccess f with
        | none => none
        | some r2 => some (some pg, { s4 with replacer := r2 })

/-- `BufferPoolManager::unpin_page`.  Outer `none` models a panic (the
`expect` in `set_is_dirty`, the out-of-range unwrap on `pages`, or the
panic inside `set_evictable`). -/
def BPM.unpinPage (s : BPM) (pid : Nat) (isDirty : Bool) : Option (Bool × BPM) :=
  match lookupA pid s.pageTable with
  | none => some (false, s)
  | some fm =>
    if fm.pinCount = 0 then some (false, s)
    else
      let s1 := { s with
        pageTable := replaceA pid ⟨fm.frameId, fm.pinCount - 1⟩ s.pageTable }
      match lookupA pid s1.pageTable with
      | none => none
      | some fm2 =>
        match s1.pages.get? fm2.frameId with
        | none => none
        | some pg =>
          let s2 := { s1 with pages := s1.pages.set fm2.frameId (pg.setIsDirty isDirty) }
          if fm.pinCount - 1 = 0 then
            match s2.replacer.setEvictable fm.frameId true with
            | none => none
            | some r2 => some (true, { s2 with replacer := r2 })
          else some (true, s2)

/-- `BufferPoolManager::flush_page`: silently returns on a non-resident
page id; otherwise writes the page through the disk manager (regardless of
the dirty flag) and then clears the dirty flag.  Total: the `resize_with`
guard makes the frame index in range. -/
def BPM.flushPage (s : BPM) (pid : Nat) : BPM :=
  match lookupA pid s.pageTable with
  | none => s
  | some fm =>
    let ps := resizePages s.pages fm.frameId
    let pg := ps.getD fm.frameId Page.invalid
    { s with pages := ps.set fm.frameId (pg.setIsDirty false),
             disk := s.disk.writePage pg }

/-- `BufferPoolManager::flush_all_pages`: collect the page ids, then flush
each. -/
def BPM.flushAllPages (s : BPM) : BPM :=
  (s.pageTable.map Prod.fst).foldl (fun t pid => t.flushPage pid) s

/-- `BufferPoolManager::delete_page`. -/
def BPM.deletePage (s : BPM) (pid : Nat) : Bool × BPM :=
  match lookupA pid s.pageTable with
  | none => (false, s)
  | some fm =>
    if 0 < fm.pinCount then (false, s)
    else
      let ps := resizePages s.pages fm.frameId
      (true, { s with pageTable := eraseA pid s.pageTable,
                      pages := ps.set fm.frameId Page.invalid,
                      freeList := s.freeList ++ [fm.frameId],
                      disk := s.disk.deallocatePage pid })

/-- `BufferPoolManager::get_is_dirty` (test hook; `none` models the
`expect`/`unwrap` panics). -/
def BPM.getIsDirty (s : BPM) (pid : Nat) : Option Bool :=
  match lookupA pid s.pageTable with
  | none => none
  | some fm => (s.pages.get? fm.frameId).map Page.isDirty

/-- One public buffer pool operation. -/
inductive BOp where
  | newP
  | fetchP (pid : Nat)
  | unpinP (pid : Nat) (isDirty : Bool)
  | flushP (pid : Nat)
  | flushAll
  | deleteP (pid : Nat)
deriving DecidableEq, Repr

/-- Apply one public buffer pool operation, dropping the returned value. -/
def applyBOp (op : BOp) (s : BPM) : Option BPM :=
  match op with
  | .newP => (s.newPage).map Prod.snd
  | .fetchP pid => (s.fetchPage pid).map Prod.snd
  | .unpinP pid d => (s.unpinPage pid d).map Prod.snd
  | .flushP pid => some (s.flushPage pid)
  | .flushAll => some s.flushAllPages
  | .deleteP pid => some (s.deletePage pid).2

/-- Run a sequence of public buffer pool operations. -/
def runBOps : List BOp → BPM → Option BPM
  | [], s => some s
  | op :: rest, s =>
    match applyBOp op s with
    | none => none
    | some s2 => runBOps rest s2

/-- The three-operation run driving a dirty page through an eviction:
pool of 1 frame, K = 2. -/
def c1Ops : List BOp := [.newP, .unpinP 0 true]

/-- C1 (code bug): with a single-frame pool, page 0 is created, unpinned
dirty, and then evicted by the next `new_page` through the replacer (the
free list is already empty) — yet the `write_page` of the disk manager is never
called: `disk.writes` stays empty.  The spec requires the dirty victim to
be written back before the frame is reused. -/
theorem new_page_discards_dirty_victim :
    ((runBOps c1Ops (BPM.new 1 2 Disk.new)).bind (fun s => s.getIsDirty 0)
        = some true) ∧
    ((runBOps c1Ops (BPM.new 1 2 Disk.new)).map BPM.freeList = some []) ∧
    (((runBOps c1Ops (BPM.new 1 2 Disk.new)).bind BPM.newPage).map
        (fun q => (q.1, q.2.disk.writes)) = some (some 1, [])) := by
  exact ⟨by decide, by decide, by decide⟩

/-- C2 (code bug): after the eviction in the same run, the old
`PageId → frame` entry is not removed: frame 0 appears as the `frame_id`
of two page-table entries (pages 0 and 1) while the free list is empty,
violating the exactly-one-place invariant. -/
theorem eviction_leaves_stale_page_table_entry :
    (runBOps [.newP, .unpinP 0 true, .newP] (BPM.new 1 2 Disk.new)).map
        (fun s => ((s.pageTable.filter (fun q => q.2.frameId == 0)).length,
                   s.freeList.contains 0))
      = some (2, false) := by
  decide

/-- C4 (code bug): after `new_page; unpin_page(0, false); fetch_page(0)`
on a single-frame pool, the only resident page has `pin_count = 1` and the
free list is empty, yet `new_page` succeeds (returning page 1) because
`fetch_page` never disables eviction for the re-pinned frame — the claim
`None iff all resident pages pinned and free list empty` fails. -/
theorem new_page_succeeds_with_all_pages_pinned :
    ((runBOps [.newP, .unpinP 0 false, .fetchP 0] (BPM.new 1 2 Disk.new)).map
        (fun s => (s.pageTable.all (fun q => decide (0 < q.2.pinCount)),
                   s.freeList))
      = some (true, [])) ∧
    (((runBOps [.newP, .unpinP 0 false, .fetchP 0] (BPM.new 1 2 Disk.new)).bind
        BPM.newPage).map Prod.fst = some (some 1)) := by
  exact ⟨by decide, by decide⟩

/-- C6 (code bug): `delete_page` on an unpinned resident page returns true,
removes the page-table entry, resets the frame, pushes the frame to the
back of the free list and deallocates on disk — but never calls the
`remove` of the replacer: the node of the frame is still in the node store (and still
evictable) after deletion. -/
theorem delete_page_leaves_frame_in_replacer :
    ((runBOps [.newP, .unpinP 0 false] (BPM.new 1 2 Disk.new)).map
        (fun s => (s.deletePage 0).1) = some true) ∧
    ((runBOps [.newP, .unpinP 0 false] (BPM.new 1 2 Disk.new)).map
        (fun s => ((s.deletePage 0).2.pageTable, (s.deletePage 0).2.freeList,
                   (s.deletePage 0).2.disk.deallocs))
      = some ([], [0], [0])) ∧
    ((runBOps [.newP, .unpinP 0 false] (BPM.new 1 2 Disk.new)).map
        (fun s => lookupA 0 (s.deletePage 0).2.replacer.nodeStore)
      = some (some ⟨[0], 2, true⟩)) := by
  exact ⟨by decide, by decide, by decide⟩

lemma lookupA_replaceA {α : Type} (f : Nat) (v : α) :
    ∀ l : List (Nat × α), lookupA f (replaceA f v l) = (lookupA f l).map (fun _ => v) := by
  intro l
  induction l with
  | nil => rfl
  | cons p rest ih =>
    by_cases hp : p.1 = f
    · show lookupA f ((if p.1 = f then (f, v) else p) :: replaceA f v rest) = _
      rw [if_pos hp, lookupA, if_pos rfl, lookupA, if_pos hp]
      rfl
    · show lookupA f ((if p.1 = f then (f, v) else p) :: replaceA f v rest) = _
      rw [if_neg hp, lookupA, if_neg hp, lookupA, if_neg hp, ih]

/-- C5: `unpin_page(page_id, is_dirty)` returns false when `page_id` is not
in the page table or when its pin count is already zero (leaving the state
unchanged); otherwise it decrements the pin count, overwrites the page
dirty flag with `is_dirty` (no OR with the previous value), calls
`set_evictable(frame, true)` exactly when the pin count reached zero, and
returns true. -/
theorem unpin_page_semantics (s : BPM) (pid : Nat) (d : Bool) :
    (lookupA pid s.pageTable = none → s.unpinPage pid d = some (false, s)) ∧
    (∀ fm, lookupA pid s.pageTable = some fm → fm.pinCount = 0 →
      s.unpinPage pid d = some (false, s)) ∧
    (∀ fm pg r2, lookupA pid s.pageTable = some fm → fm.pinCount ≠ 0 →
      s.pages.get? fm.frameId = some pg →
      (if fm.pinCount - 1 = 0 then s.replacer.setEvictable fm.frameId true
        else some s.replacer) = some r2 →
      s.unpinPage pid d = some (true,
        { s with pageTable := replaceA pid ⟨fm.frameId, fm.pinCount - 1⟩ s.pageTable,
                 pages := s.pages.set fm.frameId (pg.setIsDirty d),
                 replacer := r2 })) := by
  refine ⟨?_, ?_, ?_⟩
  · intro h
    unfold BPM.unpinPage
    rw [h]
  · intro fm h h0
    unfold BPM.unpinPage
    rw [h]
    dsimp only
    rw [if_pos h0]
  · intro fm pg r2 h hpin hpg hr
    unfold BPM.unpinPage
    rw [h]
    dsimp only
    rw [if_neg hpin]
    have hlk : lookupA pid
        (replaceA pid (⟨fm.frameId, fm.pinCount - 1⟩ : FrameMetadata) s.pageTable)
          = some ⟨fm.frameId, fm.pinCount - 1⟩ := by
      rw [lookupA_replaceA, h]
      rfl
    rw [hlk]
    dsimp only
    rw [hpg]
    dsimp only
    by_cases hz : fm.pinCount - 1 = 0
    · rw [if_pos hz] at hr
      rw [if_pos hz, hr]
    · rw [if_neg hz] at hr
      rw [if_neg hz, ← Option.some.inj hr]

/-- C7: `flush_page(page_id)` on a resident page writes the page through
the disk manager regardless of its dirty flag and then clears the dirty
flag; on a non-resident page id it returns silently; in both cases the
page table (hence every pin count and residency), the free list and the
replacer state are left unchanged. -/
theorem flush_page_semantics (s : BPM) (pid : Nat) :
    ((s.flushPage pid).pageTable = s.pageTable ∧
     (s.flushPage pid).freeList = s.freeList ∧
     (s.flushPage pid).replacer = s.replacer) ∧
    (lookupA pid s.pageTable = none → s.flushPage pid = s) ∧
    (∀ fm pg, lookupA pid s.pageTable = some fm →
      s.pages.get? fm.frameId = some pg →
      s.flushPage pid =
        { s with pages := s.pages.set fm.frameId (pg.setIsDirty false),
                 disk := s.disk.writePage pg }) := by
  refine ⟨?_, ?_, ?_⟩
  · unfold BPM.flushPage
    cases h : lookupA pid s.pageTable with
    | none => exact ⟨rfl, rfl, rfl⟩
    | some fm => exact ⟨rfl, rfl, rfl⟩
  · intro h
    unfold BPM.flushPage
    rw [h]
  · intro fm pg h hpg
    unfold BPM.flushPage
    rw [h]
    dsimp only
    obtain ⟨hlt, -⟩ := List.get?_eq_some.mp hpg
    have hres : resizePages s.pages fm.frameId = s.pages := by
      unfold resizePages
      rw [if_neg (by omega)]
    rw [hres]
    have hgd : s.pages.getD fm.frameId Page.invalid = pg := by
      simp only [List.getD, List.get?_eq_getElem?] at hpg ⊢
      simp [hpg]
    rw [hgd]

/-- A concrete buffer pool state: page 5 resident in frame 0 with
`pin_count = 1`, its replacer node not evictable. -/
def c5S : BPM :=
  { poolSize := 1, pages := [{ pid := some 5, isDirty := false }],
    pageTable := [(5, ⟨0, 1⟩)], disk := Disk.new,
    replacer := { nodeStore := [(0, ⟨[0], 2, false⟩)], currentTimestamp := 1,
                  currSize := 0, maxSize := 1, k := 2 },
    freeList := [] }

/-- The replacer of `c5S` after `set_evictable(0, true)`. -/
def c5R2 : LRUKReplacer :=
  { nodeStore := [(0, ⟨[0], 2, true⟩)], currentTimestamp := 1,
    currSize := 1, maxSize := 1, k := 2 }

/-- Witness for `unpin_page_semantics`: unpinning page 5 of `c5S` as dirty
drops the pin count to zero, sets the dirty flag, marks frame 0 evictable
and returns true. -/
theorem unpin_page_semantics_witness :
    (lookupA 5 c5S.pageTable = some ⟨0, 1⟩ ∧ (1 : Nat) ≠ 0 ∧
      c5S.pages.get? 0 = some { pid := some 5, isDirty := false } ∧
      (if (1 : Nat) - 1 = 0 then c5S.replacer.setEvictable 0 true
        else some c5S.replacer) = some c5R2) ∧
    c5S.unpinPage 5 true = some (true,
      { c5S with pageTable := replaceA 5 ⟨0, 0⟩ c5S.pageTable,
                 pages := c5S.pages.set 0
                   (Page.setIsDirty { pid := some 5, isDirty := false } true),
                 replacer := c5R2 }) :=
  ⟨⟨by decide, by decide, by decide, by decide⟩,
    (unpin_page_semantics c5S 5 true).2.2 ⟨0, 1⟩ { pid := some 5, isDirty := false }
      c5R2 (by decide) (by decide) (by decide) (by decide)⟩

/-- A concrete buffer pool state with a dirty resident page, for the
`flush_page` witness. -/
def c7S : BPM :=
  { poolSize := 1, pages := [{ pid := some 5, isDirty := true }],
    pageTable := [(5, ⟨0, 1⟩)], disk := Disk.new,
    replacer := { nodeStore := [(0, ⟨[0], 2, false⟩)], currentTimestamp := 1,
                  currSize := 0, maxSize := 1, k := 2 },
    freeList := [] }

/-- Witness for `flush_page_semantics`: flushing resident page 5 of `c7S`
logs a disk write of the page (still marked dirty at write time) and clears
the in-pool dirty flag, leaving page table, free list and replacer
untouched. -/
theorem flush_page_semantics_witness :
    (lookupA 5 c7S.pageTable = some ⟨0, 1⟩ ∧
      c7S.pages.get? 0 = some { pid := some 5, isDirty := true }) ∧
    c7S.flushPage 5 =
      { c7S with pages := c7S.pages.set 0
                   (Page.setIsDirty { pid := some 5, isDirty := true } false),
                 disk := c7S.disk.writePage { pid := some 5, isDirty := true } } :=
  ⟨⟨by decide, by decide⟩,
    (flush_page_semantics c7S 5).2.2 ⟨0, 1⟩ { pid := some 5, isDirty := true }
      (by decide) (by decide)⟩

/-! ## Row serialization (from `row.rs`) -/

namespace Tuple

/-- Modelled from the spec: the schema and type system are outside the
given sources (spec §1 scopes out "row/tuple serialization; schema and type
system").  Minimal model per `row.rs`: `Text` is the only variable-length
data type; one fixed-length data type (`integer`, stored in 1 byte)
represents all the others. -/
inductive DataType where
  | integer
  | text
deriving DecidableEq, Repr

/-- Modelled from the spec: a field value; `Field::serialize` emits its
bytes (`Text` is its byte string, the fixed-length `integer` one byte) and
`Field::deserialize` inverts that from a byte slice. -/
inductive Field where
  | intF (v : Nat)
  | textF (bytes : List Nat)
deriving DecidableEq, Repr

/-- `Field::get_type`. -/
def Field.getType : Field → DataType
  | .intF _ => .integer
  | .textF _ => .text

/-- `Field::serialize` (modelled from the spec, see `Field`). -/
def Field.serialize : Field → List Nat
  | .intF v => [v % 256]
  | .textF bs => bs

/-- `Field::deserialize` (modelled from the spec, see `Field`). -/
def Field.deserialize (bs : List Nat) : DataType → Field
  | .integer => .intF (bs.headD 0)
  | .text => .textF bs

/-- Modelled from the spec: a schema column, carrying its declared data
type, its `stored_offset` (for `Text`: an index into the offset map; for
fixed-length types: the byte offset inside the field-data portion) and its
`length_bytes` (fixed-length types only). -/
structure Column where
  dataType : DataType
  storedOffset : Nat
  lengthBytes : Nat
deriving DecidableEq, Repr

/-- Modelled from the spec: the schema (`Table`) as consumed by `row.rs`:
its column list and `variable_length_fields()`, the number of `Text`
columns. -/
structure Table where
  columns : List Column
deriving DecidableEq, Repr

/-- `Table::variable_length_fields`. -/
def Table.variableLengthFields (t : Table) : Nat :=
  (t.columns.filter (fun c => c.dataType == DataType.text)).length

/-- `Row` (wraps `Vec<Field>`). -/
structure Row where
  values : List Field
deriving DecidableEq, Repr

/-- The serialization loop of `Row::serialize`: walk the fields in order,
pushing `current_offset` (advanced only by `Text` lengths) into the offset
list for each `Text` field and appending the bytes of every field to the data
portion. -/
def rowSerializeLoop : List Field → Nat → List Nat × List Nat
  | [], _ => ([], [])
  | fd :: rest, cur =>
    match fd.getType with
    | .text =>
      let sf := fd.serialize
      let (offs, data) := rowSerializeLoop rest (cur + sf.length)
      (cur :: offs, sf ++ data)
    | .integer =>
      let sf := fd.serialize
      let (offs, data) := rowSerializeLoop rest cur
      (offs, sf ++ data)

/-- `(current_offset as u16).to_be_bytes()`. -/
def u16be (o : Nat) : List Nat := [(o % 65536) / 256, o % 256]

/-- `Row::serialize`: the big-endian `u16` offset map followed by the field
data.  (The `schema` parameter is unused, exactly as in the source.) -/
def Row.serialize (r : Row) (schema : Table) : List Nat :=
  match rowSerializeLoop r.values 0 with
  | (offs, data) => (offs.map u16be).flatten ++ data

/-- The offset-map read of `Row::deserialize`:
`u16::from_be_bytes([bytes[2i], bytes[2i+1]])` for each variable-length
field; `none` models the out-of-bounds indexing panic. -/
def readOffsets (bytes : List Nat) (n : Nat) : Option (List Nat) :=
  (List.range n).mapM (fun i => do
    let hi ← bytes.get? (2 * i)
    let lo ← bytes.get? (2 * i + 1)
    pure (hi * 256 + lo))

/-- `&bytes[start..end]`; `none` models the slice-out-of-range panic. -/
def sliceBytes (bytes : List Nat) (start stop : Nat) : Option (List Nat) :=
  if start ≤ stop ∧ stop ≤ bytes.length then
    some ((bytes.drop start).take (stop - start))
  else none

/-- The per-column loop of `Row::deserialize`.  For a `Text` column the
`stored_offset` indexes the offset map and the byte range runs from that
offset (taken relative to the whole byte stream) to the next offset or the
end; for a fixed-length column the range is
`stored_offset + field_data_start .. + length_bytes`. -/
def deserializeCols (bytes : List Nat) (offs : List Nat) (fds : Nat) :
    List Column → Option (List Field)
  | [] => some []
  | c :: rest => do
    let fd ← match c.dataType with
      | .text => do
        let start ← offs.get? c.storedOffset
        let stop ← if c.storedOffset = offs.length - 1 then some bytes.length
                   else offs.get? (c.storedOffset + 1)
        let bs ← sliceBytes bytes start stop
        pure (Field.deserialize bs .text)
      | .integer => do
        let start := c.storedOffset + fds
        let bs ← sliceBytes bytes start (start + c.lengthBytes)
        pure (Field.deserialize bs .integer)
    let rest2 ← deserializeCols bytes offs fds rest
    pure (fd :: rest2)

/-- `Row::deserialize`. -/
def Row.deserialize (bytes : List Nat) (schema : Table) : Option Row := do
  let offs ← readOffsets bytes schema.variableLengthFields
  let values ← deserializeCols bytes offs (offs.length * 2) schema.columns
  pure ⟨values⟩

/-- A one-column `Text` schema. -/
def c9Schema : Table := ⟨[⟨.text, 0, 0⟩]⟩

/-- C9 (code bug): for the single-`Text`-column schema and the row
`["ab"]` (whose field type matches the column), `Row::serialize` writes the
text offset relative to the field-data portion but `Row::deserialize`
reads it as an offset into the whole byte stream, so the round trip
returns a row containing the two offset-map bytes and is not the original
row. -/
theorem row_roundtrip_fails_on_text :
    (Row.serialize ⟨[Field.textF [97, 98]]⟩ c9Schema = [0, 0, 97, 98]) ∧
    (Row.deserialize [0, 0, 97, 98] c9Schema = some ⟨[Field.textF [0, 0, 97, 98]]⟩) ∧
    (Row.deserialize (Row.serialize ⟨[Field.textF [97, 98]]⟩ c9Schema) c9Schema
      ≠ some ⟨[Field.textF [97, 98]]⟩) := by
  exact ⟨by decide, by decide, by decide⟩

end Tuple
